import Mathlib

/-!
Shallow embedding of the conference-deadline tracker (`src/main.py`) and
proofs about its enrichment, sorting and loading behaviour.

Conventions of the embedding:
* `datetime` values are modelled as a single integer: seconds counted from
  the proleptic-Gregorian origin used by Python's `date.toordinal`
  (ordinal 1 = year 1, January 1), so a `datetime` at midnight of ordinal
  `n` is `n * 86400` seconds.  `timedelta.days` of a difference is the
  floored quotient by 86400, which `Int.fdiv` provides.
* `datetime.strptime(s, "%Y-%m-%d")` is modelled by `parseDate`: exactly
  four digits, a dash, one or two digits, a dash, one or two digits,
  matching the whole string, with the month/day/year range checks done by
  the `datetime` constructor.
* Python's stable `list.sort` is modelled by `List.insertionSort`, which
  inserts each element in front of later, not earlier, equal elements and
  is therefore stable in the same sense.
* The YAML file of `load_conferences` is abstracted to a `ConfigFile`
  input: missing file, unparsable file, or a parse result (`none` for an
  empty document, otherwise a mapping that may or may not carry the
  `conferences` key).  Exceptions become `Except AppError`.
-/

namespace ConfTracker

/-- Errors that the Python code can raise on the paths modelled here. -/
inductive AppError where
  | fileNotFound
  | yamlError
  | attributeError
  | valueError
  deriving DecidableEq, Repr

/-! ## Calendar arithmetic (Python `datetime` / `_ymd2ord`) -/

/-- Gregorian leap-year rule, as in Python's `calendar.isleap`. -/
def isLeap (y : Nat) : Bool :=
  y % 4 == 0 && (y % 100 != 0 || y % 400 == 0)

/-- Length of month `m` in year `y` (Python `_days_in_month`). -/
def daysInMonth (y m : Nat) : Nat :=
  match m with
  | 1 => 31 | 2 => if isLeap y then 29 else 28 | 3 => 31 | 4 => 30
  | 5 => 31 | 6 => 30 | 7 => 31 | 8 => 31 | 9 => 30 | 10 => 31
  | 11 => 30 | 12 => 31 | _ => 0

/-- Days in year `y` before month `m` (Python `_days_before_month`). -/
def daysBeforeMonth (y m : Nat) : Nat :=
  (match m with
   | 1 => 0 | 2 => 31 | 3 => 59 | 4 => 90 | 5 => 120 | 6 => 151
   | 7 => 181 | 8 => 212 | 9 => 243 | 10 => 273 | 11 => 304 | 12 => 334
   | _ => 365)
  + (if 2 < m && isLeap y then 1 else 0)

/-- Proleptic-Gregorian ordinal of a date (Python `date.toordinal`, with
ordinal 1 = 0001-01-01). -/
def toOrdinal (y m d : Nat) : Nat :=
  365 * (y - 1) + (y - 1) / 4 - (y - 1) / 100 + (y - 1) / 400
    + daysBeforeMonth y m + d

/-- Seconds of the `datetime` at midnight of the given date. -/
def midnightSec (y m d : Nat) : Int :=
  (toOrdinal y m d : Int) * 86400

/-! ## Date-string parsing (`parse_date` over `strptime "%Y-%m-%d"`) -/

/-- Split a character list at every dash, keeping empty groups, as the
`-` separators of the `strptime` format do. -/
def splitDash : List Char → List (List Char)
  | [] => [[]]
  | c :: cs =>
    let rest := splitDash cs
    if c = '-' then [] :: rest
    else match rest with
      | [] => [[c]]
      | g :: gs => (c :: g) :: gs

/-- Numeric value of a digit string (Python `int`). -/
def digitsVal (cs : List Char) : Nat :=
  cs.foldl (fun acc c => acc * 10 + (c.toNat - 48)) 0

/-- `parse_date` (src/main.py:46-50) restricted to the success data: the
`(year, month, day)` triple accepted by `strptime(s, "%Y-%m-%d")`, or
`none` when `strptime` raises `ValueError`.  `%Y` matches exactly four
digits, `%m` and `%d` one or two, the whole string must be consumed, and
the `datetime` constructor checks the ranges. -/
def parseDate (s : String) : Option (Nat × Nat × Nat) :=
  match splitDash s.data with
  | [ys, ms, ds] =>
    if ys.length = 4 ∧ (ms.length = 1 ∨ ms.length = 2)
        ∧ (ds.length = 1 ∨ ds.length = 2)
        ∧ ys.all Char.isDigit ∧ ms.all Char.isDigit ∧ ds.all Char.isDigit then
      let y := digitsVal ys
      let m := digitsVal ms
      let d := digitsVal ds
      if 1 ≤ y ∧ 1 ≤ m ∧ m ≤ 12 ∧ 1 ≤ d ∧ d ≤ daysInMonth y m then
        some (y, m, d)
      else none
    else none
  | _ => none

/-- `timedelta.days` of `deadline-midnight minus now`: floored quotient of
the signed second difference by 86400. -/
def daysFromNow (now : Int) (ymd : Nat × Nat × Nat) : Int :=
  Int.fdiv (midnightSec ymd.1 ymd.2.1 ymd.2.2 - now) 86400

/-- `days_until` (src/main.py:53-60): `None` for a falsy date string
(absent or empty), a `ValueError` for a malformed one, otherwise the
floored day difference from `now` to the deadline's midnight. -/
def days_until (now : Int) (date_str : Option String) : Except AppError (Option Int) :=
  match date_str with
  | none => .ok none
  | some s =>
    if s = "" then .ok none
    else
      match parseDate s with
      | none => .error .valueError
      | some ymd => .ok (some (daysFromNow now ymd))

/-! ## Data model -/

/-- A raw conference record, as loaded from YAML: the fields that the
enrichment logic reads.  `deadlines` is the insertion-ordered mapping
from deadline-type label to optional date string. -/
structure Conf where
  name : String
  deadlines : List (String × Option String)
  conference_date : Option String
  deriving DecidableEq, Repr

/-- One entry of the per-record `all_deadlines` list. -/
structure DeadlineEntry where
  type : String
  date : String
  days : Int
  deriving DecidableEq, Repr

/-- An enriched conference record: the copied base record plus the
computed fields attached by `enrich_conference_data`. -/
structure EnrichedConf where
  base : Conf
  all_deadlines : List DeadlineEntry
  next_deadline : Option DeadlineEntry
  conference_days : Option Int
  deriving DecidableEq, Repr

/-! ## Enrichment (`enrich_conference_data`, src/main.py:63-104) -/

/-- The deadline-collection loop (src/main.py:72-80): one entry per
deadline whose `days_until` is not `None`, in mapping order; a malformed
date propagates its `ValueError`. -/
def collectDeadlines (now : Int) : List (String × Option String) → Except AppError (List DeadlineEntry)
  | [] => .ok []
  | (ty, ds) :: rest =>
    match days_until now ds with
    | .error e => .error e
    | .ok days =>
      match collectDeadlines now rest with
      | .error e => .error e
      | .ok tail =>
        match days, ds with
        | some k, some s => .ok (⟨ty, s, k⟩ :: tail)
        | _, _ => .ok tail

/-- The per-entry comparison of `all_deadlines.sort(key=lambda x: x["days"])`. -/
def entryLE (a b : DeadlineEntry) : Prop := a.days ≤ b.days

instance : DecidableRel entryLE :=
  fun a b => inferInstanceAs (Decidable (a.days ≤ b.days))

instance : IsTotal DeadlineEntry entryLE := ⟨fun a b => le_total a.days b.days⟩

instance : IsTrans DeadlineEntry entryLE := ⟨fun _ _ _ h h' => le_trans h h'⟩

/-- The loop body for one record (src/main.py:68-89): copy the record,
collect and sort its dated deadlines, take the first as `next_deadline`,
and compute `conference_days`. -/
def enrich_one (now : Int) (conf : Conf) : Except AppError EnrichedConf :=
  match collectDeadlines now conf.deadlines with
  | .error e => .error e
  | .ok all_deadlines =>
    let sorted := all_deadlines.insertionSort entryLE
    match days_until now conf.conference_date with
    | .error e => .error e
    | .ok conference_days =>
      .ok { base := conf
            all_deadlines := sorted
            next_deadline := sorted.head?
            conference_days := conference_days }

/-- The enrichment loop over all records, in input order. -/
def enrich_list (now : Int) : List Conf → Except AppError (List EnrichedConf)
  | [] => .ok []
  | c :: rest =>
    match enrich_one now c with
    | .error e => .error e
    | .ok e =>
      match enrich_list now rest with
      | .error er => .error er
      | .ok tail => .ok (e :: tail)

/-- `sort_key` (src/main.py:93-100): `float('inf')` is the top element,
a passed nearest deadline maps to `10000 + abs(days)`, an upcoming one to
`days` itself. -/
def sort_key (conf : EnrichedConf) : WithTop Int :=
  match conf.next_deadline with
  | none => ⊤
  | some nd => if nd.days < 0 then ((10000 + |nd.days| : Int) : WithTop Int)
               else ((nd.days : Int) : WithTop Int)

/-- The record comparison of `enriched.sort(key=sort_key)`. -/
def confLE (a b : EnrichedConf) : Prop := sort_key a ≤ sort_key b

instance : DecidableRel confLE :=
  fun a b => inferInstanceAs (Decidable (sort_key a ≤ sort_key b))

instance : IsTotal EnrichedConf confLE := ⟨fun a b => le_total (sort_key a) (sort_key b)⟩

instance : IsTrans EnrichedConf confLE := ⟨fun _ _ _ h h' => le_trans h h'⟩

/-- `enrich_conference_data` (src/main.py:63-104): enrich every record,
then stably sort the enriched list by `sort_key`. -/
def enrich_conference_data (now : Int) (conferences : List Conf) : Except AppError (List EnrichedConf) :=
  match enrich_list now conferences with
  | .error e => .error e
  | .ok enriched => .ok (enriched.insertionSort confLE)

/-! ## Config loading (`load_conferences`, src/main.py:32-43) -/

/-- The parsed YAML document: a mapping that may or may not carry the
top-level `conferences` key.  (The static path check on line 37 is always
true for the fixed path and is not modelled.) -/
structure YamlDoc where
  conferences : Option (List Conf)
  deriving DecidableEq, Repr

/-- The state of the config file as `load_conferences` finds it:
`missing` (the `open` raises), `malformed` (`yaml.safe_load` raises), or
parsed, where an empty document parses to `none`. -/
inductive ConfigFile where
  | missing
  | malformed
  | parsed (doc : Option YamlDoc)
  deriving DecidableEq, Repr

/-- `load_conferences` (src/main.py:32-43): `data.get("conferences", [])`
on the parsed document; the `open` and `safe_load` failures propagate, and
`data.get` on a `None` document raises an `AttributeError`. -/
def load_conferences : ConfigFile → Except AppError (List Conf)
  | .missing => .error .fileNotFound
  | .malformed => .error .yamlError
  | .parsed none => .error .attributeError
  | .parsed (some doc) => .ok (doc.conferences.getD [])

/-- The request pipeline of both handlers (src/main.py:110-111, 125-126):
load, then enrich at the current moment. -/
def serve (fs : ConfigFile) (now : Int) : Except AppError (List EnrichedConf) :=
  match load_conferences fs with
  | .error e => .error e
  | .ok conferences => enrich_conference_data now conferences

/-! ## Derived notions used to state the claims -/

/-- A date value counted as present by the code: a non-null, non-empty
string (`if not date_str` treats `None` and `""` alike as absent). -/
def presentDate : Option String → Option String
  | none => none
  | some s => if s = "" then none else some s

/-- The entry a single dated deadline contributes, when its date parses:
the spec's "one (type, date, days-remaining) triple per deadline that has
a date". -/
def entryOfDated (now : Int) (td : String × Option String) : Option DeadlineEntry :=
  match presentDate td.2 with
  | none => none
  | some s => (parseDate s).map (fun ymd => ⟨td.1, s, daysFromNow now ymd⟩)

/-- The three ordering tiers of the spec: 0 = upcoming nearest deadline,
1 = passed nearest deadline, 2 = no dated deadline. -/
def tierRank (e : EnrichedConf) : Nat :=
  match e.next_deadline with
  | none => 2
  | some nd => if nd.days < 0 then 1 else 0

/-- A record has a malformed deadline date: some present date string in
its `deadlines` mapping fails to parse. -/
def malformedDeadline (c : Conf) : Prop :=
  ∃ td ∈ c.deadlines, ∃ s, presentDate td.2 = some s ∧ parseDate s = none

/-- Every present date string of the record (deadline dates and the
conference date) parses. -/
def allDatesParse (c : Conf) : Prop :=
  (∀ td ∈ c.deadlines, ∀ s, presentDate td.2 = some s → (parseDate s).isSome)
    ∧ (∀ s, presentDate c.conference_date = some s → (parseDate s).isSome)

/-- Names of the enriched output, for stating ordering facts. -/
def namesOf (r : Except AppError (List EnrichedConf)) : Except AppError (List String) :=
  r.map (List.map (fun e => e.base.name))

/-- Nearest-deadline day counts of the enriched output. -/
def nextDaysOf (r : Except AppError (List EnrichedConf)) : Except AppError (List (Option Int)) :=
  r.map (List.map (fun e => e.next_deadline.map (fun nd => nd.days)))

/-! ## Concrete records for scenarios and counterexamples -/

/-- Scenario record A of spec §8: one far-future paper deadline. -/
def cA : Conf := ⟨"A", [("paper", some "2099-01-01")], none⟩

/-- Scenario record B of spec §8: one long-past paper deadline. -/
def cB : Conf := ⟨"B", [("paper", some "2000-01-01")], none⟩

/-- Scenario record C of spec §8: no deadlines. -/
def cC : Conf := ⟨"C", [], none⟩

/-- A record with one past and one future deadline. -/
def cX : Conf := ⟨"X", [("paper", some "2020-01-01"), ("camera", some "2030-01-01")], none⟩

/-- Midnight of 2026-10-12 as a current moment. -/
def nowOct2026 : Int := midnightSec 2026 10 12

/-- Midnight of 2098-01-01 as a current moment. -/
def nowJan2098 : Int := midnightSec 2098 1 1

/-! ## Basic characterisations of the embedded functions -/

theorem days_until_of_absent {now : Int} {ds : Option String}
    (h : presentDate ds = none) : days_until now ds = .ok none := by
  cases ds with
  | none => rfl
  | some s =>
    by_cases hs : s = ""
    · simp [days_until, hs]
    · simp [presentDate, hs] at h

theorem days_until_of_parse {now : Int} {ds : Option String} {s : String}
    {ymd : Nat × Nat × Nat} (h : presentDate ds = some s)
    (hp : parseDate s = some ymd) :
    days_until now ds = .ok (some (daysFromNow now ymd)) := by
  cases ds with
  | none => simp [presentDate] at h
  | some t =>
    by_cases hs : t = ""
    · simp [presentDate, hs] at h
    · simp only [presentDate, if_neg hs, Option.some.injEq] at h
      subst h
      simp [days_until, hs, hp]

theorem days_until_of_bad {now : Int} {ds : Option String} {s : String}
    (h : presentDate ds = some s) (hp : parseDate s = none) :
    days_until now ds = .error .valueError := by
  cases ds with
  | none => simp [presentDate] at h
  | some t =>
    by_cases hs : t = ""
    · simp [presentDate, hs] at h
    · simp only [presentDate, if_neg hs, Option.some.injEq] at h
      subst h
      simp [days_until, hs, hp]

theorem days_until_ok_iff {now : Int} {ds : Option String} :
    (∃ v, days_until now ds = .ok v)
      ↔ ∀ s, presentDate ds = some s → (parseDate s).isSome := by
  constructor
  · rintro ⟨v, hv⟩ s hs
    cases hp : parseDate s with
    | some ymd => simp
    | none => rw [days_until_of_bad hs hp] at hv; cases hv
  · intro h
    cases hpd : presentDate ds with
    | none => exact ⟨none, days_until_of_absent hpd⟩
    | some s =>
      cases hp : parseDate s with
      | none => have := h s hpd; rw [hp] at this; cases this
      | some ymd => exact ⟨some (daysFromNow now ymd), days_until_of_parse hpd hp⟩

theorem collect_ok_eq {now : Int} :
    ∀ {dls : List (String × Option String)} {raw : List DeadlineEntry},
      collectDeadlines now dls = .ok raw →
      raw = dls.filterMap (entryOfDated now)
  | [], raw, h => by
    simp only [collectDeadlines, Except.ok.injEq] at h
    simp [← h]
  | (ty, ds) :: rest, raw, h => by
    rw [collectDeadlines] at h
    cases hd : days_until now ds with
    | error e => rw [hd] at h; cases h
    | ok days =>
      rw [hd] at h
      cases hr : collectDeadlines now rest with
      | error e => rw [hr] at h; cases h
      | ok tail =>
        rw [hr] at h
        have htail := collect_ok_eq hr
        cases ds with
        | none =>
          have : days = none := by
            have : days_until now (none : Option String) = .ok none := rfl
            rw [this] at hd; cases hd; rfl
          subst this
          simp only [Except.ok.injEq] at h
          simp [List.filterMap, entryOfDated, presentDate, ← h, htail]
        | some s =>
          by_cases hs : s = ""
          · subst hs
            have : days = none := by
              have h0 : days_until now (some "") = .ok none := by simp [days_until]
              rw [h0] at hd; cases hd; rfl
            subst this
            simp only [Except.ok.injEq] at h
            simp [List.filterMap, entryOfDated, presentDate, ← h, htail]
          · cases hp : parseDate s with
            | none =>
              rw [days_until_of_bad (by simp [presentDate, hs]) hp] at hd
              cases hd
            | some ymd =>
              rw [days_until_of_parse (by simp [presentDate, hs]) hp] at hd
              cases hd
              simp only [Except.ok.injEq] at h
              have : entryOfDated now (ty, some s)
                  = some ⟨ty, s, daysFromNow now ymd⟩ := by
                simp [entryOfDated, presentDate, hs, hp]
              simp [List.filterMap, this, ← h, htail]

theorem collect_ok_iff {now : Int} :
    ∀ {dls : List (String × Option String)},
      (∃ raw, collectDeadlines now dls = .ok raw)
        ↔ ∀ td ∈ dls, ∀ s, presentDate td.2 = some s → (parseDate s).isSome
  | [] => by simp [collectDeadlines]
  | (ty, ds) :: rest => by
    rw [List.forall_mem_cons]
    constructor
    · rintro ⟨raw, h⟩
      rw [collectDeadlines] at h
      cases hd : days_until now ds with
      | error e => rw [hd] at h; cases h
      | ok days =>
        rw [hd] at h
        cases hr : collectDeadlines now rest with
        | error e => rw [hr] at h; cases h
        | ok tail =>
          refine ⟨fun s hps => ?_, (@collect_ok_iff now rest).mp ⟨tail, hr⟩⟩
          exact (@days_until_ok_iff now ds).mp ⟨days, hd⟩ s hps
    · rintro ⟨hhead, htail⟩
      obtain ⟨days, hd⟩ := (@days_until_ok_iff now ds).mpr hhead
      obtain ⟨tail, hr⟩ := (@collect_ok_iff now rest).mpr htail
      rw [collectDeadlines, hd, hr]
      cases days with
      | none =>
        cases ds with
        | none => exact ⟨tail, rfl⟩
        | some s => exact ⟨tail, rfl⟩
      | some k =>
        cases ds with
        | none => exact ⟨tail, rfl⟩
        | some s => exact ⟨⟨ty, s, k⟩ :: tail, rfl⟩

theorem enrich_one_ok_elim {now : Int} {conf : Conf} {out : EnrichedConf}
    (h : enrich_one now conf = .ok out) :
    ∃ raw cd, collectDeadlines now conf.deadlines = .ok raw
      ∧ days_until now conf.conference_date = .ok cd
      ∧ out = ⟨conf, raw.insertionSort entryLE,
               (raw.insertionSort entryLE).head?, cd⟩ := by
  rw [enrich_one] at h
  cases h1 : collectDeadlines now conf.deadlines with
  | error e => rw [h1] at h; cases h
  | ok raw =>
    rw [h1] at h
    cases h2 : days_until now conf.conference_date with
    | error e => rw [h2] at h; cases h
    | ok cd =>
      rw [h2] at h
      simp only [Except.ok.injEq] at h
      exact ⟨raw, cd, rfl, rfl, h.symm⟩

theorem enrich_one_base {now : Int} {conf : Conf} {out : EnrichedConf}
    (h : enrich_one now conf = .ok out) : out.base = conf := by
  obtain ⟨raw, cd, -, -, hout⟩ := enrich_one_ok_elim h
  rw [hout]

theorem enrich_one_ok_iff {now : Int} {conf : Conf} :
    (∃ e, enrich_one now conf = .ok e) ↔ allDatesParse conf := by
  constructor
  · rintro ⟨e, he⟩
    obtain ⟨raw, cd, h1, h2, -⟩ := enrich_one_ok_elim he
    exact ⟨(@collect_ok_iff now conf.deadlines).mp ⟨raw, h1⟩,
           (@days_until_ok_iff now conf.conference_date).mp ⟨cd, h2⟩⟩
  · rintro ⟨h1, h2⟩
    obtain ⟨raw, hr⟩ := (@collect_ok_iff now conf.deadlines).mpr h1
    obtain ⟨cd, hc⟩ := (@days_until_ok_iff now conf.conference_date).mpr h2
    exact ⟨⟨conf, raw.insertionSort entryLE, (raw.insertionSort entryLE).head?, cd⟩,
      by rw [enrich_one, hr, hc]⟩

theorem enrich_list_ok_iff {now : Int} :
    ∀ {confs : List Conf},
      (∃ out, enrich_list now confs = .ok out)
        ↔ ∀ c ∈ confs, ∃ e, enrich_one now c = .ok e
  | [] => by simp [enrich_list]
  | c :: rest => by
    rw [List.forall_mem_cons]
    constructor
    · rintro ⟨out, h⟩
      rw [enrich_list] at h
      cases h1 : enrich_one now c with
      | error e => rw [h1] at h; cases h
      | ok e =>
        rw [h1] at h
        cases h2 : enrich_list now rest with
        | error er => rw [h2] at h; cases h
        | ok tail =>
          exact ⟨⟨e, rfl⟩, (@enrich_list_ok_iff now rest).mp ⟨tail, h2⟩⟩

    · rintro ⟨⟨e, h1⟩, hrest⟩
      obtain ⟨tail, h2⟩ := (@enrich_list_ok_iff now rest).mpr hrest
      exact ⟨e :: tail, by rw [enrich_list, h1, h2]⟩

theorem enrich_list_map_base {now : Int} :
    ∀ {confs : List Conf} {out : List EnrichedConf},
      enrich_list now confs = .ok out →
      out.map EnrichedConf.base = confs
  | [], out, h => by
    simp only [enrich_list, Except.ok.injEq] at h
    simp [← h]
  | c :: rest, out, h => by
    rw [enrich_list] at h
    cases h1 : enrich_one now c with
    | error e => rw [h1] at h; cases h
    | ok e =>
      rw [h1] at h
      cases h2 : enrich_list now rest with
      | error er => rw [h2] at h; cases h
      | ok tail =>
        rw [h2] at h
        simp only [Except.ok.injEq] at h
        simp [← h, enrich_one_base h1, enrich_list_map_base h2]

theorem enrich_cd_ok_elim {now : Int} {confs : List Conf} {out : List EnrichedConf}
    (h : enrich_conference_data now confs = .ok out) :
    ∃ enr, enrich_list now confs = .ok enr ∧ out = enr.insertionSort confLE := by
  rw [enrich_conference_data] at h
  cases h1 : enrich_list now confs with
  | error e => rw [h1] at h; cases h
  | ok enr =>
    rw [h1] at h
    simp only [Except.ok.injEq] at h
    exact ⟨enr, rfl, h.symm⟩

theorem enrich_cd_sorted {now : Int} {confs : List Conf} {out : List EnrichedConf}
    (h : enrich_conference_data now confs = .ok out) :
    out.Pairwise confLE := by
  obtain ⟨enr, -, hout⟩ := enrich_cd_ok_elim h
  rw [hout]
  exact List.sorted_insertionSort confLE enr

theorem enrich_cd_ok_iff {now : Int} {confs : List Conf} :
    (∃ out, enrich_conference_data now confs = .ok out)
      ↔ ∃ enr, enrich_list now confs = .ok enr := by
  constructor
  · rintro ⟨out, h⟩
    obtain ⟨enr, h1, -⟩ := enrich_cd_ok_elim h
    exact ⟨enr, h1⟩
  · rintro ⟨enr, h1⟩
    exact ⟨enr.insertionSort confLE, by rw [enrich_conference_data, h1]⟩

/-! ## Facts about `sort_key` and the tiers -/

theorem sort_key_of_none {e : EnrichedConf} (h : e.next_deadline = none) :
    sort_key e = ⊤ := by simp [sort_key, h]

theorem sort_key_of_upcoming {e : EnrichedConf} {nd : DeadlineEntry}
    (h : e.next_deadline = some nd) (h0 : 0 ≤ nd.days) :
    sort_key e = ((nd.days : Int) : WithTop Int) := by
  simp [sort_key, h, not_lt.mpr h0]

theorem sort_key_of_passed {e : EnrichedConf} {nd : DeadlineEntry}
    (h : e.next_deadline = some nd) (h0 : nd.days < 0) :
    sort_key e = ((10000 + |nd.days| : Int) : WithTop Int) := by
  simp [sort_key, h, h0]

theorem next_of_sort_key_top {e : EnrichedConf} (h : sort_key e = ⊤) :
    e.next_deadline = none := by
  cases hn : e.next_deadline with
  | none => rfl
  | some nd =>
    rw [sort_key, hn] at h
    by_cases h0 : nd.days < 0 <;> simp [h0] at h

theorem pairwise_mem_strengthen {α : Type} {R : α → α → Prop} {P : α → Prop} :
    ∀ {l : List α}, l.Pairwise R → (∀ x ∈ l, P x) →
      l.Pairwise (fun a b => (P a ∧ P b) ∧ R a b)
  | [], _, _ => List.Pairwise.nil
  | a :: l, h, hp => by
    rcases List.pairwise_cons.mp h with ⟨ha, hl⟩
    refine List.pairwise_cons.mpr ⟨fun b hb => ?_, ?_⟩
    · exact ⟨⟨hp a (List.mem_cons_self a l), hp b (List.mem_cons_of_mem _ hb)⟩,
        ha b hb⟩
    · exact pairwise_mem_strengthen hl (fun x hx => hp x (List.mem_cons_of_mem _ hx))

instance {ε α : Type} [DecidableEq ε] [DecidableEq α] : DecidableEq (Except ε α) :=
  fun x y =>
    match x, y with
    | .ok a, .ok b =>
      if h : a = b then isTrue (by rw [h]) else isFalse (fun hh => by cases hh; exact h rfl)
    | .error a, .error b =>
      if h : a = b then isTrue (by rw [h]) else isFalse (fun hh => by cases hh; exact h rfl)
    | .ok _, .error _ => isFalse (fun hh => by cases hh)
    | .error _, .ok _ => isFalse (fun hh => by cases hh)

/-- The bound on upcoming nearest deadlines under which the intended
three-tier ordering is actually achieved by `sort_key`. -/
def upcomingBounded (e : EnrichedConf) : Prop :=
  ∀ nd, e.next_deadline = some nd → 0 ≤ nd.days → nd.days ≤ 10000

theorem tier_step {a b : EnrichedConf} (hpb : upcomingBounded b) (hle : confLE a b) :
    tierRank a ≤ tierRank b ∧
      (∀ na nb, a.next_deadline = some na → b.next_deadline = some nb →
        0 ≤ na.days → 0 ≤ nb.days → na.days ≤ nb.days) := by
  rw [confLE] at hle
  cases hA : a.next_deadline with
  | none =>
    have hatop : sort_key a = ⊤ := sort_key_of_none hA
    rw [hatop] at hle
    have hB := next_of_sort_key_top (top_le_iff.mp hle)
    refine ⟨?_, ?_⟩
    · simp [tierRank, hA, hB]
    · intro na nb hna
      cases hna
  | some na =>
    by_cases hneg : na.days < 0
    · refine ⟨?_, ?_⟩
      · cases hB : b.next_deadline with
        | none => simp [tierRank, hA, hB, hneg]
        | some nb =>
          by_cases hbneg : nb.days < 0
          · simp [tierRank, hA, hB, hneg, hbneg]
          · push_neg at hbneg
            rw [sort_key_of_passed hA hneg, sort_key_of_upcoming hB hbneg] at hle
            have h1 : (10000 + |na.days| : Int) ≤ nb.days := WithTop.coe_le_coe.mp hle
            have h2 : nb.days ≤ 10000 := hpb nb hB hbneg
            have h3 : (1 : Int) ≤ |na.days| := by
              rw [abs_of_neg hneg]; omega
            omega
      · intro na' nb hna' hnb h0a h0b
        injection hna' with heq
        subst heq
        omega
    · push_neg at hneg
      refine ⟨?_, ?_⟩
      · simp only [tierRank, hA, if_neg (not_lt.mpr hneg)]
        exact Nat.zero_le _
      · intro na' nb hna' hnb h0a h0b
        injection hna' with heq
        subst heq
        rw [sort_key_of_upcoming hA hneg, sort_key_of_upcoming hnb h0b] at hle
        exact WithTop.coe_le_coe.mp hle

/-! ## Claim theorems -/

/-- C1 (counterexample): at the fixed current moment 2026-10-12, the
spec's own scenario `[A (deadline 2099-01-01), B (deadline 2000-01-01),
C (no deadlines)]` enriches to the order `[B, A, C]`, not `[A, B, C]`:
record B's nearest deadline has passed (days = -9781) yet B sorts before
record A, whose nearest deadline is upcoming (days = 26379), because
`sort_key` maps the passed deadline to `10000 + 9781 = 19781 < 26379`.
This refutes both the universal upcoming-before-passed tier ordering and
the scenario as stated. -/
theorem three_tier_ordering_counterexample :
    namesOf (enrich_conference_data nowOct2026 [cA, cB, cC]) = .ok ["B", "A", "C"] ∧
    nextDaysOf (enrich_conference_data nowOct2026 [cA, cB, cC])
      = .ok [some (-9781), some 26379, none] ∧
    ¬ namesOf (enrich_conference_data nowOct2026 [cA, cB, cC]) = .ok ["A", "B", "C"] := by
  refine ⟨by decide, by decide, by decide⟩

/-- C1 (amended): provided every enriched record's upcoming nearest
deadline is at most 10000 days away, the output is ordered in the three
tiers: upcoming nearest deadlines first in ascending days-remaining, then
passed nearest deadlines, then records with no dated deadline; and the
spec's scenario `[A, B, C]` does hold at current moments close enough to
the 2099 deadline, e.g. 2098-01-01. -/
theorem three_tier_ordering_of_bounded_upcoming :
    (∀ (now : Int) (confs : List Conf) (out : List EnrichedConf),
      enrich_conference_data now confs = .ok out →
      (∀ e ∈ out, upcomingBounded e) →
      out.Pairwise (fun a b =>
        tierRank a ≤ tierRank b ∧
          (∀ na nb, a.next_deadline = some na → b.next_deadline = some nb →
            0 ≤ na.days → 0 ≤ nb.days → na.days ≤ nb.days))) ∧
    namesOf (enrich_conference_data nowJan2098 [cA, cB, cC]) = .ok ["A", "B", "C"] := by
  refine ⟨?_, by decide⟩
  intro now confs out h hb
  have hs := pairwise_mem_strengthen (enrich_cd_sorted h) hb
  exact hs.imp (fun hab => tier_step hab.1.2 hab.2)

/-- C1 amended, instantiated: the singleton input `[C]` (no deadlines)
satisfies the bound hypothesis and its ordered output. -/
theorem three_tier_ordering_of_bounded_upcoming_witness :
    enrich_conference_data 0 [cC] = .ok [⟨cC, [], none, none⟩] ∧
    ([(⟨cC, [], none, none⟩ : EnrichedConf)]).Pairwise (fun a b =>
      tierRank a ≤ tierRank b ∧
        (∀ na nb, a.next_deadline = some na → b.next_deadline = some nb →
          0 ≤ na.days → 0 ≤ nb.days → na.days ≤ nb.days)) := by
  refine ⟨by decide, ?_⟩
  exact three_tier_ordering_of_bounded_upcoming.1 0 [cC] [⟨cC, [], none, none⟩]
    (by decide)
    (by
      intro e he nd hnd
      rw [List.mem_singleton] at he
      subst he
      cases hnd)

/-- C5: within the passed tier the output order is monotone in the
magnitude of the days past: whenever one record precedes another in the
enriched output and both nearest deadlines have passed, the earlier
record's `abs(days)` is the smaller one (`sort_key = 10000 + abs(days)`
there, and the output is sorted by `sort_key`). -/
theorem passed_tier_monotone_abs :
    ∀ (now : Int) (confs : List Conf) (out : List EnrichedConf),
      enrich_conference_data now confs = .ok out →
      out.Pairwise (fun a b =>
        ∀ na nb, a.next_deadline = some na → b.next_deadline = some nb →
          na.days < 0 → nb.days < 0 → |na.days| ≤ |nb.days|) := by
  intro now confs out h
  refine (enrich_cd_sorted h).imp ?_
  intro a b hle na nb hna hnb h1 h2
  rw [confLE, sort_key_of_passed hna h1, sort_key_of_passed hnb h2] at hle
  have := WithTop.coe_le_coe.mp hle
  omega

/-- Passed-deadline record, 2000-01-01. -/
def cP1 : Conf := ⟨"P1", [("paper", some "2000-01-01")], none⟩

/-- Passed-deadline record, 2020-01-01. -/
def cP2 : Conf := ⟨"P2", [("paper", some "2020-01-01")], none⟩

/-- `cP1` enriched at 2026-10-12. -/
def eP1 : EnrichedConf :=
  ⟨cP1, [⟨"paper", "2000-01-01", -9781⟩], some ⟨"paper", "2000-01-01", -9781⟩, none⟩

/-- `cP2` enriched at 2026-10-12. -/
def eP2 : EnrichedConf :=
  ⟨cP2, [⟨"paper", "2020-01-01", -2476⟩], some ⟨"paper", "2020-01-01", -2476⟩, none⟩

/-- C5, instantiated: two passed records at 2026-10-12 (deadlines
2020-01-01 and 2000-01-01, given in the opposite order) sort with the
more recently passed one first. -/
theorem passed_tier_monotone_abs_witness :
    enrich_conference_data nowOct2026 [cP1, cP2] = .ok [eP2, eP1] ∧
    ([eP2, eP1]).Pairwise (fun a b =>
      ∀ na nb, a.next_deadline = some na → b.next_deadline = some nb →
        na.days < 0 → nb.days < 0 → |na.days| ≤ |nb.days|) :=
  ⟨by decide,
   passed_tier_monotone_abs nowOct2026 [cP1, cP2] [eP2, eP1] (by decide)⟩

/-- The past-deadline entry of `cX` at 2026-10-12. -/
def eXpast : DeadlineEntry := ⟨"paper", "2020-01-01", -2476⟩

/-- The future-deadline entry of `cX` at 2026-10-12. -/
def eXfut : DeadlineEntry := ⟨"camera", "2030-01-01", 1177⟩

/-- `cX` enriched at 2026-10-12. -/
def eX : EnrichedConf := ⟨cX, [eXpast, eXfut], some eXpast, none⟩

/-- C2 (counterexample): for the record `X` with one past deadline
(2020-01-01, days = -2476) and one future deadline (2030-01-01,
days = 1177) at the fixed moment 2026-10-12, `next_deadline` is the PAST
entry, not the future one: the per-record sort uses the raw signed days,
and the negative value is the smaller. -/
theorem next_deadline_past_future_counterexample :
    enrich_one nowOct2026 cX = .ok eX ∧
    eXpast.days < 0 ∧ 0 < eXfut.days ∧
    eX.next_deadline = some eXpast ∧
    ¬ eX.next_deadline = some eXfut := by
  refine ⟨by decide, by decide, by decide, by decide, by decide⟩

/-- C2 (amended): for a record with exactly two dated deadlines, one past
and one future, `next_deadline` is the PAST one — the entry with the
smaller signed days value — since per-record selection sorts by raw
signed days before the magnitude-inflated record ordering is applied. -/
theorem next_deadline_prefers_smaller_signed_days :
    ∀ (now : Int) (conf : Conf) (out : EnrichedConf) (a b : DeadlineEntry),
      enrich_one now conf = .ok out →
      collectDeadlines now conf.deadlines = .ok [a, b] →
      (a.days < 0 → 0 < b.days → out.next_deadline = some a) ∧
      (b.days < 0 → 0 < a.days → out.next_deadline = some b) := by
  intro now conf out a b h hc
  obtain ⟨raw, cd, h1, h2, hout⟩ := enrich_one_ok_elim h
  rw [h1] at hc
  injection hc with hraw
  subst hraw
  subst hout
  constructor
  · intro ha hb
    have hab : entryLE a b := le_of_lt (ha.trans hb)
    simp [List.insertionSort, List.orderedInsert, hab]
  · intro hb ha
    have hab : ¬ entryLE a b := not_le.mpr (hb.trans ha)
    simp [List.insertionSort, List.orderedInsert, hab]

/-- C2 amended, instantiated at `cX` and 2026-10-12. -/
theorem next_deadline_prefers_smaller_signed_days_witness :
    enrich_one nowOct2026 cX = .ok eX ∧
    collectDeadlines nowOct2026 cX.deadlines = .ok [eXpast, eXfut] ∧
    eXpast.days < 0 ∧ 0 < eXfut.days ∧
    eX.next_deadline = some eXpast := by
  refine ⟨by decide, by decide, by decide, by decide, ?_⟩
  exact (next_deadline_prefers_smaller_signed_days nowOct2026 cX eX eXpast eXfut
    (by decide) (by decide)).1 (by decide) (by decide)

/-- Noon of 2026-10-12 as a current moment. -/
def noonOct2026 : Int := midnightSec 2026 10 12 + 43200

/-- C3 (counterexample): the deadline date 2026-10-13 is strictly in the
future of the moment 2026-10-12 12:00, yet `days_until` returns 0, which
is not positive: `timedelta.days` floors the 12-hour difference to 0. -/
theorem days_until_future_not_positive_counterexample :
    parseDate "2026-10-13" = some (2026, 10, 13) ∧
    noonOct2026 < midnightSec 2026 10 13 ∧
    days_until noonOct2026 (some "2026-10-13") = .ok (some 0) ∧
    ¬ 0 < (0 : Int) := by
  refine ⟨by decide, by decide, by decide, by decide⟩

/-- C3 (amended): for a deadline date strictly in the future of the
current moment, the computed days-remaining is a NONNEGATIVE integer
equal to the floor of the timedelta in days between the deadline's
midnight and the current moment (it is 0 when less than one full day
remains). -/
theorem days_until_future_nonneg_floor :
    ∀ (now : Int) (s : String) (y m d : Nat),
      parseDate s = some (y, m, d) →
      now < midnightSec y m d →
      days_until now (some s) = .ok (some ((midnightSec y m d - now).fdiv 86400)) ∧
      0 ≤ (midnightSec y m d - now).fdiv 86400 := by
  intro now s y m d hp hf
  have hs : ¬ s = "" := by
    intro h
    rw [h, show parseDate "" = none from rfl] at hp
    cases hp
  constructor
  · simp only [days_until, if_neg hs, hp]
    rfl
  · exact Int.fdiv_nonneg (by omega) (by norm_num)

/-- C3 amended, instantiated at 2026-10-12 12:00 and 2026-10-13. -/
theorem days_until_future_nonneg_floor_witness :
    parseDate "2026-10-13" = some (2026, 10, 13) ∧
    noonOct2026 < midnightSec 2026 10 13 ∧
    (days_until noonOct2026 (some "2026-10-13")
        = .ok (some ((midnightSec 2026 10 13 - noonOct2026).fdiv 86400)) ∧
      0 ≤ (midnightSec 2026 10 13 - noonOct2026).fdiv 86400) := by
  refine ⟨by decide, by decide, ?_⟩
  exact days_until_future_nonneg_floor noonOct2026 "2026-10-13" 2026 10 13
    (by decide) (by decide)

/-- C4: per record, `all_deadlines` has exactly one entry per deadline
with a present date (absent and empty dates are skipped), is sorted
ascending by days-remaining, and `next_deadline` is its first element
(`none` when the record has no dated deadlines, since `head? [] = none`). -/
theorem all_deadlines_spec :
    ∀ (now : Int) (conf : Conf) (out : EnrichedConf),
      enrich_one now conf = .ok out →
      out.all_deadlines.Perm (conf.deadlines.filterMap (entryOfDated now)) ∧
      out.all_deadlines.Pairwise entryLE ∧
      out.next_deadline = out.all_deadlines.head? := by
  intro now conf out h
  obtain ⟨raw, cd, h1, h2, hout⟩ := enrich_one_ok_elim h
  subst hout
  have hraw := collect_ok_eq h1
  subst hraw
  exact ⟨List.perm_insertionSort entryLE _, List.sorted_insertionSort entryLE _, rfl⟩

/-- C4, instantiated at `cX` and 2026-10-12. -/
theorem all_deadlines_spec_witness :
    enrich_one nowOct2026 cX = .ok eX ∧
    (eX.all_deadlines.Perm (cX.deadlines.filterMap (entryOfDated nowOct2026)) ∧
      eX.all_deadlines.Pairwise entryLE ∧
      eX.next_deadline = eX.all_deadlines.head?) :=
  ⟨by decide, all_deadlines_spec nowOct2026 cX eX (by decide)⟩

/-- C6: the config loader returns the raw record list when the parsed
mapping has the `conferences` key, the empty list when the key is absent
from the mapping, and raises when the file is missing or unparsable. -/
theorem load_conferences_spec :
    (∀ (doc : YamlDoc) (l : List Conf), doc.conferences = some l →
      load_conferences (.parsed (some doc)) = .ok l) ∧
    (∀ doc : YamlDoc, doc.conferences = none →
      load_conferences (.parsed (some doc)) = .ok []) ∧
    load_conferences .missing = .error .fileNotFound ∧
    load_conferences .malformed = .error .yamlError := by
  refine ⟨?_, ?_, rfl, rfl⟩
  · intro doc l h
    simp [load_conferences, h]
  · intro doc h
    simp [load_conferences, h]

/-- C6, instantiated on a document with the key and one without. -/
theorem load_conferences_spec_witness :
    (⟨some [cC]⟩ : YamlDoc).conferences = some [cC] ∧
    load_conferences (.parsed (some ⟨some [cC]⟩)) = .ok [cC] ∧
    (⟨none⟩ : YamlDoc).conferences = none ∧
    load_conferences (.parsed (some ⟨none⟩)) = .ok [] :=
  ⟨rfl, load_conferences_spec.1 ⟨some [cC]⟩ [cC] rfl, rfl,
   load_conferences_spec.2.1 ⟨none⟩ rfl⟩

/-- C10: a document that parses to `None` makes the loader raise (the
`AttributeError` of `None.get`) rather than return the empty list; the
empty-list result arises only from an actual mapping, either one lacking
the `conferences` key or one carrying an empty list under it. -/
theorem empty_document_raises :
    load_conferences (.parsed none) = .error .attributeError ∧
    (∀ l : List Conf, ¬ load_conferences (.parsed none) = .ok l) ∧
    (∀ doc : YamlDoc, load_conferences (.parsed (some doc)) = .ok [] →
      doc.conferences = none ∨ doc.conferences = some []) := by
  refine ⟨rfl, ?_, ?_⟩
  · intro l h
    cases h
  · intro doc h
    cases hd : doc.conferences with
    | none => exact Or.inl rfl
    | some l =>
      simp only [load_conferences, hd, Option.getD_some] at h
      injection h with h'
      rw [h']
      exact Or.inr rfl

/-- C10, instantiated: the null document is not the empty-list fallback. -/
theorem empty_document_raises_witness :
    ¬ load_conferences (.parsed none) = .ok [] ∧
    ((⟨none⟩ : YamlDoc).conferences = none ∨ (⟨none⟩ : YamlDoc).conferences = some []) :=
  ⟨empty_document_raises.2.1 [],
   empty_document_raises.2.2 ⟨none⟩ (by decide)⟩

/-- A record with a present but malformed deadline date. -/
def cBad : Conf := ⟨"Bad", [("paper", some "oops")], none⟩

/-- C7: enrichment raises (propagating `strptime`'s `ValueError`) on any
input containing a present, non-empty deadline date string that does not
match `YYYY-MM-DD`, and raises no error when every present date string
(deadline dates and conference dates) parses.  A `None` or empty-string
date is what the code counts as absent (`if not date_str`), so it is
skipped rather than rejected. -/
theorem malformed_date_fatal :
    ∀ (now : Int) (confs : List Conf),
      ((∃ c ∈ confs, malformedDeadline c) →
        ∃ er, enrich_conference_data now confs = .error er) ∧
      ((∀ c ∈ confs, allDatesParse c) →
        ∃ out, enrich_conference_data now confs = .ok out) := by
  intro now confs
  constructor
  · rintro ⟨c, hc, hm⟩
    obtain ⟨td, htd, s, hps, hbad⟩ := hm
    cases hres : enrich_conference_data now confs with
    | error er => exact ⟨er, rfl⟩
    | ok out =>
      exfalso
      obtain ⟨enr, h1⟩ := enrich_cd_ok_iff.mp ⟨out, hres⟩
      obtain ⟨e, he⟩ := enrich_list_ok_iff.mp ⟨enr, h1⟩ c hc
      have hparse := (enrich_one_ok_iff.mp ⟨e, he⟩).1 td htd s hps
      rw [hbad] at hparse
      cases hparse
  · intro hall
    exact enrich_cd_ok_iff.mpr (enrich_list_ok_iff.mpr
      (fun c hc => enrich_one_ok_iff.mpr (hall c hc)))

/-- C7, instantiated: the record `Bad` with date "oops" is fatal, while a
record with no dates enriches without error. -/
theorem malformed_date_fatal_witness :
    (∃ er, enrich_conference_data 0 [cBad] = .error er) ∧
    (∃ out, enrich_conference_data 0 [cC] = .ok out) :=
  ⟨(malformed_date_fatal 0 [cBad]).1
      ⟨cBad, by decide, ("paper", some "oops"), by decide, "oops", by decide, by decide⟩,
   (malformed_date_fatal 0 [cC]).2 (by
      intro c hc
      rw [List.mem_singleton] at hc
      subst hc
      exact ⟨fun td htd => (List.not_mem_nil td htd).elim,
             fun s hps => by cases hps⟩)⟩

/-- C8: with the current moment held fixed, the load-then-enrich pipeline
is a function of its inputs alone: two runs on the same config state and
the same moment produce identical results. -/
theorem serve_deterministic :
    ∀ (fs : ConfigFile) (now : Int) (r₁ r₂ : Except AppError (List EnrichedConf)),
      serve fs now = r₁ → serve fs now = r₂ → r₁ = r₂ := by
  intro fs now r₁ r₂ h1 h2
  rw [← h1, ← h2]

/-- C8, instantiated on a one-record config. -/
theorem serve_deterministic_witness :
    serve (.parsed (some ⟨some [cC]⟩)) 0 = .ok [⟨cC, [], none, none⟩] ∧
    (Except.ok [(⟨cC, [], none, none⟩ : EnrichedConf)]
        : Except AppError (List EnrichedConf))
      = .ok [⟨cC, [], none, none⟩] :=
  ⟨by decide,
   serve_deterministic (.parsed (some ⟨some [cC]⟩)) 0
     (.ok [⟨cC, [], none, none⟩]) (.ok [⟨cC, [], none, none⟩])
     (by decide) (by decide)⟩

/-- C9: enrichment does not alter the input records: the bases of the
output records are exactly the input records (as a permutation — the
output is re-sorted), each output being a copy of its input record with
the derived fields carried alongside. -/
theorem enrich_preserves_input_records :
    ∀ (now : Int) (confs : List Conf) (out : List EnrichedConf),
      enrich_conference_data now confs = .ok out →
      (out.map EnrichedConf.base).Perm confs := by
  intro now confs out h
  obtain ⟨enr, h1, hout⟩ := enrich_cd_ok_elim h
  subst hout
  have hperm := (List.perm_insertionSort confLE enr).map EnrichedConf.base
  rw [enrich_list_map_base h1] at hperm
  exact hperm

/-- C9, instantiated on a one-record input. -/
theorem enrich_preserves_input_records_witness :
    enrich_conference_data 0 [cC] = .ok [⟨cC, [], none, none⟩] ∧
    (([(⟨cC, [], none, none⟩ : EnrichedConf)]).map EnrichedConf.base).Perm [cC] :=
  ⟨by decide,
   enrich_preserves_input_records 0 [cC] [⟨cC, [], none, none⟩] (by decide)⟩

end ConfTracker

